import Mathlib

/- Shallow embedding of the table / portfolio extraction core of the
repository github.com/nycmonkey/sprocs (src/main.go).

Strings are modelled as lists of characters.  The Go standard-library
string helpers used by the source (strings.ToUpper, strings.TrimSpace,
strings.Split, strings.Join, strings.TrimPrefix, strings.TrimSuffix,
strings.HasPrefix, strings.HasSuffix, strings.Contains) are modelled
below for the ASCII range in which the SQL identifiers and catalog
codes handled by the program live.  Go maps that are used as sets
(SprocInfo.Tables, SprocInfo.Aliases, SprocInfo.Portfolios, the
whitelist and the portfolio catalog) are modelled as lists of strings
with membership semantics; iteration order over a Go map is
unspecified, which the theorems account for by quantifying over the
list order. -/

abbrev Str := List Char

/-- ASCII uppercase map on one character: the effect of the Go function
strings.ToUpper (main.go uses it at lines 165, 348, 505, 517, 522, 527,
535) on the ASCII characters of the identifiers handled by the
program. -/
def upChar (c : Char) : Char :=
  match c with
  | 'a' => 'A' | 'b' => 'B' | 'c' => 'C' | 'd' => 'D' | 'e' => 'E'
  | 'f' => 'F' | 'g' => 'G' | 'h' => 'H' | 'i' => 'I' | 'j' => 'J'
  | 'k' => 'K' | 'l' => 'L' | 'm' => 'M' | 'n' => 'N' | 'o' => 'O'
  | 'p' => 'P' | 'q' => 'Q' | 'r' => 'R' | 's' => 'S' | 't' => 'T'
  | 'u' => 'U' | 'v' => 'V' | 'w' => 'W' | 'x' => 'X' | 'y' => 'Y'
  | 'z' => 'Z'
  | other => other

/-- Model of strings.ToUpper. -/
def upStr (s : Str) : Str := s.map upChar

/-- The uppercase ASCII letters, the image alphabet of upChar. -/
def ucList : List Char := "ABCDEFGHIJKLMNOPQRSTUVWXYZ".toList

/-- ASCII whitespace, the fragment of unicode.IsSpace relevant here. -/
def goIsSpace (c : Char) : Bool :=
  c == ' ' || c == '\t' || c == '\n' || c == '\r' ||
    c == Char.ofNat 11 || c == Char.ofNat 12

/-- Model of strings.TrimSpace: drop leading and trailing whitespace. -/
def goTrimSpace (s : Str) : Str :=
  ((s.dropWhile goIsSpace).reverse.dropWhile goIsSpace).reverse

/-- Model of strings.HasPrefix pre s. -/
def hasPre (pre s : Str) : Bool := pre.isPrefixOf s

/-- Model of strings.HasSuffix suf s. -/
def hasSuf (suf s : Str) : Bool := suf.isSuffixOf s

/-- Model of strings.TrimPrefix s pre. -/
def trimPre (pre s : Str) : Str :=
  if pre.isPrefixOf s then s.drop pre.length else s

/-- Model of strings.TrimSuffix s suf. -/
def trimSuf (suf s : Str) : Str :=
  if suf.isSuffixOf s then s.take (s.length - suf.length) else s

/-- Model of strings.Split s sep for a one-character separator: Go
returns one piece per separator occurrence plus one, so the result is
never empty (the empty string splits into one empty piece). -/
def goSplitCons (c sep : Char) : List Str → List Str
  | [] => [[]]
  | p :: ps => if c = sep then [] :: p :: ps else (c :: p) :: ps

def goSplit (sep : Char) : Str → List Str
  | [] => [[]]
  | c :: rest => goSplitCons c sep (goSplit sep rest)

/-- Model of strings.Join pieces sep for a one-character separator. -/
def goJoin (sep : Char) : List Str → Str
  | [] => []
  | [p] => p
  | p :: q :: rest => p ++ sep :: goJoin sep (q :: rest)

/-- Model of strings.Contains s sub for the one-character substring
"." used at main.go line 528. -/
def hasDot (s : Str) : Bool := s.elem '.'

/-- The configured home database literal BRS compared against at
main.go line 361. -/
def homeDB : Str := "BRS".toList

/-- removeBrackets, main.go lines 343-345:
strings.TrimPrefix(strings.TrimSuffix(in, "]"), "["). -/
def removeBrackets (s : Str) : Str := trimPre ['['] (trimSuf [']'] s)

/-- The switch body of normalizeTableName (main.go lines 349-368) on
the already split segment list.  A none result models the log.Fatalln
calls that abort the whole run without returning a value (cases 0 and
more than 3 segments). -/
def normalizeSegs : List Str → Option Str
  | [] => none
  | [t] => some (removeBrackets t)
  | [_, t] => some (removeBrackets t)
  | [d, b, t] =>
    if removeBrackets d = homeDB then some (removeBrackets t)
    else some (goJoin '.' [removeBrackets d, removeBrackets b, removeBrackets t])
  | _ => none

/-- normalizeTableName, main.go lines 347-370:
strings.Split(strings.ToUpper(strings.TrimSpace(in)), ".") followed by
the switch on the number of segments. -/
def normalizeTableName (s : Str) : Option Str :=
  normalizeSegs (goSplit '.' (upStr (goTrimSpace s)))

/-- Per-routine extraction state, the SprocInfo structure of main.go
lines 65-70.  The three Go map-as-set fields are modelled as lists of
keys in insertion order. -/
structure SprocInfo where
  tables : List Str
  aliases : List Str
  portfolios : List Str
deriving DecidableEq

def SprocInfo.empty : SprocInfo := ⟨[], [], []⟩

/-- Map-key insertion: inserting an existing key leaves the key set
unchanged, a new key is appended. -/
def insertStr (s : Str) (l : List Str) : List Str :=
  if s ∈ l then l else l ++ [s]

/-- EnterTable_name, main.go lines 457-462: normalize the trimmed node
text and record it when nonempty; none models the fatal abort inside
normalizeTableName killing the run. -/
def enterTableName (i : SprocInfo) (text : Str) : Option SprocInfo :=
  match normalizeTableName (goTrimSpace text) with
  | none => none
  | some n =>
    some (if n.length > 0 then { i with tables := insertStr n i.tables } else i)

/-- EnterTable_alias, main.go lines 502-507: normalize the trimmed node
text, uppercase it and record it as an alias when nonempty. -/
def enterTableAlias (i : SprocInfo) (text : Str) : Option SprocInfo :=
  match normalizeTableName (goTrimSpace text) with
  | none => none
  | some n =>
    some (if n.length > 0 then { i with aliases := insertStr (upStr n) i.aliases } else i)

/-- EnterSimple_id, main.go lines 465-470: record the trimmed text when
it is an exact portfolio-catalog key. -/
def enterSimpleId (pk : List Str) (i : SprocInfo) (text : Str) : SprocInfo :=
  let id := goTrimSpace text
  if id ∈ pk then { i with portfolios := insertStr id i.portfolios } else i

/-- The single-quote character stripped from constants at main.go lines
475-476. -/
def quoteCh : Char := Char.ofNat 39

/-- The token a constant node contributes, main.go lines 474-476: trim
whitespace, strip one leading and then one trailing quote. -/
def constantToken (text : Str) : Str :=
  trimSuf [quoteCh] (trimPre [quoteCh] (goTrimSpace text))

/-- The value of the mutable id variable after the suffix-wildcard
block of EnterConstant (main.go lines 481-488). -/
def constantToken2 (text : Str) : Str :=
  if hasSuf ['%'] (constantToken text) then trimSuf ['%'] (constantToken text)
  else constantToken text

/-- Record every catalog key satisfying f, modelling the range loops at
main.go lines 483-487 and 492-496. -/
def addMatching (f : Str → Bool) (pk : List Str) (i : SprocInfo) : SprocInfo :=
  pk.foldl
    (fun acc k => if f k then { acc with portfolios := insertStr k acc.portfolios } else acc)
    i

/-- EnterConstant, main.go lines 473-498: exact match, then the
suffix-wildcard block (which mutates id), then the prefix-wildcard
block on the mutated id. -/
def enterConstant (pk : List Str) (i : SprocInfo) (text : Str) : SprocInfo :=
  let id0 := constantToken text
  let i1 := if id0 ∈ pk then { i with portfolios := insertStr id0 i.portfolios } else i
  let id1 := constantToken2 text
  let i2 := if hasSuf ['%'] id0 then addMatching (fun k => hasPre id1 k) pk i1 else i1
  if hasPre ['%'] id1 then addMatching (fun k => hasSuf (trimPre ['%'] id1) k) pk i2 else i2

/-- The loop body of ExitTsql_file (main.go lines 512-541) over the
table set in a given iteration order, carrying the seen set: skip
temp-marker keys, declared aliases and canonical duplicates, then emit
dotted keys unconditionally and undotted keys only when whitelisted. -/
def exitLoop (aliases wl : List Str) : List Str → List Str → List Str
  | [], _ => []
  | t :: rest, seen =>
    if hasPre ['#'] t then exitLoop aliases wl rest seen
    else if upStr t ∈ aliases then exitLoop aliases wl rest seen
    else if upStr t ∈ seen then exitLoop aliases wl rest seen
    else if hasDot t then t :: exitLoop aliases wl rest (upStr t :: seen)
    else if upStr t ∈ wl then t :: exitLoop aliases wl rest (upStr t :: seen)
    else exitLoop aliases wl rest (upStr t :: seen)

/-- The TableUsed facts one routine emits at ExitTsql_file, given the
accumulated table keys (in some iteration order), the alias set and the
whitelist. -/
def tablesUsed (tables aliases wl : List Str) : List Str :=
  exitLoop aliases wl tables []

/-- One structural parser event driving the listener, matching the
four Enter methods of TreeShapeListener that mutate extraction state. -/
inductive TreeEvent where
  | tableName (text : Str)
  | tableAlias (text : Str)
  | simpleId (text : Str)
  | constant (text : Str)
deriving DecidableEq

/-- One event step of the listener; none propagates the fatal abort. -/
def stepListener (pk : List Str) (i : SprocInfo) : TreeEvent → Option SprocInfo
  | TreeEvent.tableName t => enterTableName i t
  | TreeEvent.tableAlias t => enterTableAlias i t
  | TreeEvent.simpleId t => some (enterSimpleId pk i t)
  | TreeEvent.constant t => some (enterConstant pk i t)

/-- Run the listener over a routine event stream from the empty state
(NewTreeShapeListener, main.go lines 445-453). -/
def runListener (pk : List Str) (events : List TreeEvent) : Option SprocInfo :=
  events.foldl (fun acc e => acc.bind (fun i => stepListener pk i e)) (some SprocInfo.empty)

/-- The pair of TableUsed and PortfolioReferenced fact lists one
routine emits (ExitTsql_file, main.go lines 511-545), given the events
the parser produced for it. -/
def routineFacts (pk wl : List Str) (events : List TreeEvent) : Option (List Str × List Str) :=
  (runListener pk events).map (fun i => (tablesUsed i.tables i.aliases wl, i.portfolios))

/-- All facts of one routine including its parse errors. -/
structure RoutineFacts where
  tables : List Str
  portfolios : List Str
  errs : List Str
deriving DecidableEq

/-- Modelled from the spec: the ANTLR-generated TSQL parser (the
external package github.com/nycmonkey/sprocs/tsql, not under src/) is
consumed as a capability turning source text into an event stream and
an error stream.  Empty source text matches the grammar trivially and
produces no structural events and no syntax errors; nonempty source
yields parser-dependent streams represented by the oracles ev and er. -/
def parseOracle (ev : Str → List TreeEvent) (er : Str → List Str) (src : Str) :
    List TreeEvent × List Str :=
  if src = [] then ([], []) else (ev src, er src)

/-- parseSproc plus ExitTsql_file for one routine source text:
the facts it contributes to the three sinks. -/
def processRoutine (pk wl : List Str) (ev : Str → List TreeEvent) (er : Str → List Str)
    (src : Str) : Option RoutineFacts :=
  match parseOracle ev er src with
  | (events, errs) =>
    (routineFacts pk wl events).map (fun p => ⟨p.1, p.2, errs⟩)

/-- The task-selection step of getSprocs (main.go lines 221-242): a
routine whose definition query returned no value (def.Valid false) is
skipped and never becomes a parsing task. -/
def sprocTasks (defs : List (Str × Option Str)) : List (Str × Str) :=
  defs.filterMap (fun p => p.2.map (fun d => (p.1, d)))

/-- A worker processes its share of tasks in order; a schedule is the
partition of the task list among the workers of the pool
(handleSprocDetails, main.go lines 317-341).  The result pairs each
routine name with its facts; sink arrival order across workers is
unspecified and not modelled. -/
def runWorkers (pk wl : List Str) (ev : Str → List TreeEvent) (er : Str → List Str)
    (schedule : List (List (Str × Str))) : List (Str × Option RoutineFacts) :=
  (schedule.map (fun w => w.map (fun t => (t.1, processRoutine pk wl ev er t.2)))).flatten

/- ------------------------------------------------------------------ -/
/- Helper lemmas about the modelled Go string functions.               -/
/- ------------------------------------------------------------------ -/

theorem upChar_of_mem_uc {c : Char} (h : c ∈ ucList) : upChar c = c := by
  fin_cases h <;> rfl

theorem upChar_cases (c : Char) : upChar c = c ∨ upChar c ∈ ucList := by
  unfold upChar
  split <;> first | exact Or.inl rfl | exact Or.inr (by decide)

theorem upChar_idem (c : Char) : upChar (upChar c) = upChar c := by
  rcases upChar_cases c with h | h
  · rw [h]; exact h
  · exact upChar_of_mem_uc h

theorem upStr_idem (s : Str) : upStr (upStr s) = upStr s := by
  simp only [upStr, List.map_map]
  exact List.map_congr_left fun a _ => upChar_idem a

theorem upStr_fixed_iff (s : Str) : upStr s = s ↔ ∀ c ∈ s, upChar c = c := by
  induction s with
  | nil => simp [upStr]
  | cons c cs ih =>
    simp only [upStr, List.map_cons, List.cons.injEq, List.mem_cons] at *
    constructor
    · rintro ⟨h1, h2⟩
      intro d hd
      rcases hd with rfl | hd
      · exact h1
      · exact ih.mp h2 d hd
    · intro h
      exact ⟨h c (Or.inl rfl), ih.mpr fun d hd => h d (Or.inr hd)⟩

theorem goSplit_cons_eq {sep c : Char} {rest q : Str} {qs : List Str}
    (h : goSplit sep rest = q :: qs) :
    goSplit sep (c :: rest) = if c = sep then [] :: q :: qs else (c :: q) :: qs := by
  simp only [goSplit, h, goSplitCons]

theorem goSplit_ne_nil (sep : Char) (l : Str) : goSplit sep l ≠ [] := by
  induction l with
  | nil => simp [goSplit]
  | cons c rest ih =>
    cases h : goSplit sep rest with
    | nil => exact absurd h ih
    | cons q qs =>
      rw [goSplit_cons_eq h]
      by_cases hc : c = sep <;> simp [hc]

theorem goSplit_exists_cons (sep : Char) (l : Str) :
    ∃ q qs, goSplit sep l = q :: qs := by
  cases h : goSplit sep l with
  | nil => exact absurd h (goSplit_ne_nil sep l)
  | cons q qs => exact ⟨q, qs, rfl⟩

theorem mem_of_mem_goSplit {sep : Char} {l : Str} :
    ∀ {p : Str}, p ∈ goSplit sep l → ∀ {c : Char}, c ∈ p → c ∈ l := by
  induction l with
  | nil =>
    intro p hp c hc
    simp [goSplit] at hp
    subst hp; simp at hc
  | cons d rest ih =>
    intro p hp c hc
    obtain ⟨q, qs, h⟩ := goSplit_exists_cons sep rest
    rw [goSplit_cons_eq h] at hp
    by_cases hd : d = sep
    · rw [if_pos hd] at hp
      rcases List.mem_cons.mp hp with rfl | hp'
      · simp at hc
      · exact List.mem_cons_of_mem d (ih (by rw [h]; exact hp') hc)
    · rw [if_neg hd] at hp
      rcases List.mem_cons.mp hp with rfl | hp'
      · rcases List.mem_cons.mp hc with rfl | hc'
        · exact List.mem_cons_self c rest
        · exact List.mem_cons_of_mem d
            (ih (by rw [h]; exact List.mem_cons_self q qs) hc')
      · exact List.mem_cons_of_mem d
          (ih (by rw [h]; exact List.mem_cons_of_mem q hp') hc)

theorem sep_not_mem_goSplit {sep : Char} {l : Str} :
    ∀ {p : Str}, p ∈ goSplit sep l → sep ∉ p := by
  induction l with
  | nil =>
    intro p hp
    simp [goSplit] at hp
    subst hp; simp
  | cons d rest ih =>
    intro p hp
    obtain ⟨q, qs, h⟩ := goSplit_exists_cons sep rest
    rw [goSplit_cons_eq h] at hp
    by_cases hd : d = sep
    · rw [if_pos hd] at hp
      rcases List.mem_cons.mp hp with rfl | hp'
      · simp
      · exact ih (by rw [h]; exact hp')
    · rw [if_neg hd] at hp
      rcases List.mem_cons.mp hp with rfl | hp'
      · intro hm
        rcases List.mem_cons.mp hm with rfl | hm'
        · exact hd rfl
        · exact ih (by rw [h]; exact List.mem_cons_self q qs) hm'
      · exact ih (by rw [h]; exact List.mem_cons_of_mem q hp')

theorem goSplit_of_not_mem {sep : Char} {l : Str} (h : sep ∉ l) : goSplit sep l = [l] := by
  induction l with
  | nil => rfl
  | cons c rest ih =>
    have hc : ¬(c = sep) := fun e => h (e ▸ List.mem_cons_self c rest)
    have hrest : sep ∉ rest := fun e => h (List.mem_cons_of_mem c e)
    rw [goSplit_cons_eq (ih hrest)]
    simp [hc]

theorem goSplit_append_cons {sep : Char} {m : Str} :
    ∀ {p : Str}, sep ∉ p → goSplit sep (p ++ sep :: m) = p :: goSplit sep m := by
  intro p
  induction p with
  | nil =>
    intro _
    obtain ⟨q, qs, hm⟩ := goSplit_exists_cons sep m
    rw [List.nil_append, goSplit_cons_eq hm]
    simp [hm]
  | cons d p' ih =>
    intro h
    have hd : ¬(d = sep) := fun e => h (e ▸ List.mem_cons_self d p')
    have hp' : sep ∉ p' := fun e => h (List.mem_cons_of_mem d e)
    rw [List.cons_append, goSplit_cons_eq (ih hp')]
    simp [hd]

theorem goSplit_goJoin {sep : Char} :
    ∀ {ps : List Str}, ps ≠ [] → (∀ p ∈ ps, sep ∉ p) →
      goSplit sep (goJoin sep ps) = ps := by
  intro ps
  induction ps with
  | nil => intro hne _; exact absurd rfl hne
  | cons p rest ih =>
    intro _ h
    cases rest with
    | nil => simp only [goJoin]; exact goSplit_of_not_mem (h p (by simp))
    | cons q rest' =>
      simp only [goJoin]
      rw [goSplit_append_cons (h p (by simp))]
      rw [ih (by simp) fun x hx => h x (List.mem_cons_of_mem p hx)]

theorem mem_goJoin {sep : Char} {c : Char} :
    ∀ {ps : List Str}, c ∈ goJoin sep ps → (∃ p ∈ ps, c ∈ p) ∨ c = sep := by
  intro ps
  induction ps with
  | nil => intro h; simp [goJoin] at h
  | cons p rest ih =>
    intro h
    cases rest with
    | nil =>
      simp only [goJoin] at h
      exact Or.inl ⟨p, by simp, h⟩
    | cons q rest' =>
      simp only [goJoin] at h
      rcases List.mem_append.mp h with h1 | h1
      · exact Or.inl ⟨p, by simp, h1⟩
      · rcases List.mem_cons.mp h1 with rfl | h2
        · exact Or.inr rfl
        · rcases ih h2 with ⟨r, hr, hcr⟩ | h3
          · exact Or.inl ⟨r, List.mem_cons_of_mem p hr, hcr⟩
          · exact Or.inr h3

theorem removeBrackets_subset {s : Str} {c : Char} (h : c ∈ removeBrackets s) : c ∈ s := by
  have h1 : c ∈ trimSuf [']'] s := by
    unfold removeBrackets trimPre at h
    split at h
    · exact List.drop_subset _ _ h
    · exact h
  unfold trimSuf at h1
  split at h1
  · exact List.take_subset _ _ h1
  · exact h1

theorem normalizeSegs_upStr :
    ∀ {ps : List Str} {k : Str}, normalizeSegs ps = some k →
      (∀ p ∈ ps, ∀ c ∈ p, upChar c = c) → upStr k = k := by
  intro ps k h hps
  rcases ps with _ | ⟨a, _ | ⟨b, _ | ⟨c3, _ | ⟨d, ds⟩⟩⟩⟩
  · simp [normalizeSegs] at h
  · simp only [normalizeSegs, Option.some.injEq] at h
    subst h
    exact (upStr_fixed_iff _).mpr fun ch hch =>
      hps a (by simp) ch (removeBrackets_subset hch)
  · simp only [normalizeSegs, Option.some.injEq] at h
    subst h
    exact (upStr_fixed_iff _).mpr fun ch hch =>
      hps b (by simp) ch (removeBrackets_subset hch)
  · simp only [normalizeSegs] at h
    by_cases hbr : removeBrackets a = homeDB
    · rw [if_pos hbr, Option.some.injEq] at h
      subst h
      exact (upStr_fixed_iff _).mpr fun ch hch =>
        hps c3 (by simp) ch (removeBrackets_subset hch)
    · rw [if_neg hbr, Option.some.injEq] at h
      subst h
      apply (upStr_fixed_iff _).mpr
      intro ch hch
      rcases mem_goJoin hch with ⟨r, hr, hchr⟩ | rfl
      · simp only [List.mem_cons, List.not_mem_nil, or_false] at hr
        rcases hr with rfl | rfl | rfl
        · exact hps a (by simp) ch (removeBrackets_subset hchr)
        · exact hps b (by simp) ch (removeBrackets_subset hchr)
        · exact hps c3 (by simp) ch (removeBrackets_subset hchr)
      · rfl
  · have hnone : normalizeSegs (a :: b :: c3 :: d :: ds) = none := rfl
    rw [hnone] at h
    exact Option.noConfusion h

theorem normalize_upStr {s k : Str} (h : normalizeTableName s = some k) : upStr k = k := by
  unfold normalizeTableName at h
  apply normalizeSegs_upStr h
  intro p hp c hc
  exact (upStr_fixed_iff _).mp (upStr_idem (goTrimSpace s)) c (mem_of_mem_goSplit hp hc)

theorem mem_exitLoop {aliases wl : List Str} :
    ∀ {ts seen : List Str} {x : Str}, x ∈ exitLoop aliases wl ts seen →
      hasPre ['#'] x = false ∧ upStr x ∉ aliases ∧ upStr x ∉ seen := by
  intro ts
  induction ts with
  | nil => intro seen x hx; simp [exitLoop] at hx
  | cons t rest ih =>
    intro seen x hx
    simp only [exitLoop] at hx
    by_cases h1 : hasPre ['#'] t = true
    · rw [if_pos h1] at hx; exact ih hx
    · rw [if_neg h1] at hx
      by_cases h2 : upStr t ∈ aliases
      · rw [if_pos h2] at hx; exact ih hx
      · rw [if_neg h2] at hx
        by_cases h3 : upStr t ∈ seen
        · rw [if_pos h3] at hx; exact ih hx
        · rw [if_neg h3] at hx
          by_cases h4 : hasDot t = true
          · rw [if_pos h4] at hx
            rcases List.mem_cons.mp hx with rfl | hx'
            · exact ⟨by simpa using h1, h2, h3⟩
            · have hrec := ih hx'
              exact ⟨hrec.1, hrec.2.1, fun hs => hrec.2.2 (List.mem_cons_of_mem _ hs)⟩
          · rw [if_neg h4] at hx
            by_cases h5 : upStr t ∈ wl
            · rw [if_pos h5] at hx
              rcases List.mem_cons.mp hx with rfl | hx'
              · exact ⟨by simpa using h1, h2, h3⟩
              · have hrec := ih hx'
                exact ⟨hrec.1, hrec.2.1, fun hs => hrec.2.2 (List.mem_cons_of_mem _ hs)⟩
            · rw [if_neg h5] at hx
              have hrec := ih hx
              exact ⟨hrec.1, hrec.2.1, fun hs => hrec.2.2 (List.mem_cons_of_mem _ hs)⟩

theorem exitLoop_subset {aliases wl : List Str} :
    ∀ {ts seen : List Str} {x : Str}, x ∈ exitLoop aliases wl ts seen → x ∈ ts := by
  intro ts
  induction ts with
  | nil => intro seen x hx; simp [exitLoop] at hx
  | cons t rest ih =>
    intro seen x hx
    simp only [exitLoop] at hx
    by_cases h1 : hasPre ['#'] t = true
    · rw [if_pos h1] at hx; exact List.mem_cons_of_mem t (ih hx)
    · rw [if_neg h1] at hx
      by_cases h2 : upStr t ∈ aliases
      · rw [if_pos h2] at hx; exact List.mem_cons_of_mem t (ih hx)
      · rw [if_neg h2] at hx
        by_cases h3 : upStr t ∈ seen
        · rw [if_pos h3] at hx; exact List.mem_cons_of_mem t (ih hx)
        · rw [if_neg h3] at hx
          by_cases h4 : hasDot t = true
          · rw [if_pos h4] at hx
            rcases List.mem_cons.mp hx with rfl | hx'
            · exact List.mem_cons_self x rest
            · exact List.mem_cons_of_mem t (ih hx')
          · rw [if_neg h4] at hx
            by_cases h5 : upStr t ∈ wl
            · rw [if_pos h5] at hx
              rcases List.mem_cons.mp hx with rfl | hx'
              · exact List.mem_cons_self x rest
              · exact List.mem_cons_of_mem t (ih hx')
            · rw [if_neg h5] at hx
              exact List.mem_cons_of_mem t (ih hx)

theorem exitLoop_pairwise {aliases wl : List Str} :
    ∀ {ts seen : List Str},
      (exitLoop aliases wl ts seen).Pairwise (fun p q => upStr p ≠ upStr q) := by
  intro ts
  induction ts with
  | nil => intro seen; simp [exitLoop]
  | cons t rest ih =>
    intro seen
    simp only [exitLoop]
    by_cases h1 : hasPre ['#'] t = true
    · rw [if_pos h1]; exact ih
    · rw [if_neg h1]
      by_cases h2 : upStr t ∈ aliases
      · rw [if_pos h2]; exact ih
      · rw [if_neg h2]
        by_cases h3 : upStr t ∈ seen
        · rw [if_pos h3]; exact ih
        · rw [if_neg h3]
          by_cases h4 : hasDot t = true
          · rw [if_pos h4]
            refine List.Pairwise.cons ?_ ih
            intro y hy e
            exact (mem_exitLoop hy).2.2 (by rw [← e]; exact List.mem_cons_self _ _)
          · rw [if_neg h4]
            by_cases h5 : upStr t ∈ wl
            · rw [if_pos h5]
              refine List.Pairwise.cons ?_ ih
              intro y hy e
              exact (mem_exitLoop hy).2.2 (by rw [← e]; exact List.mem_cons_self _ _)
            · rw [if_neg h5]; exact ih

theorem exitLoop_filter_dot {aliases wl wl' : List Str} :
    ∀ {ts seen : List Str},
      (exitLoop aliases wl ts seen).filter hasDot
        = (exitLoop aliases wl' ts seen).filter hasDot := by
  intro ts
  induction ts with
  | nil => intro seen; simp [exitLoop]
  | cons t rest ih =>
    intro seen
    simp only [exitLoop]
    by_cases h1 : hasPre ['#'] t = true
    · rw [if_pos h1, if_pos h1]; exact ih
    · rw [if_neg h1, if_neg h1]
      by_cases h2 : upStr t ∈ aliases
      · rw [if_pos h2, if_pos h2]; exact ih
      · rw [if_neg h2, if_neg h2]
        by_cases h3 : upStr t ∈ seen
        · rw [if_pos h3, if_pos h3]; exact ih
        · rw [if_neg h3, if_neg h3]
          by_cases h4 : hasDot t = true
          · rw [if_pos h4, if_pos h4, List.filter_cons_of_pos h4,
              List.filter_cons_of_pos h4, ih]
          · rw [if_neg h4, if_neg h4]
            have h4f : ¬hasDot t := h4
            by_cases h5 : upStr t ∈ wl
            · rw [if_pos h5, List.filter_cons_of_neg h4f]
              by_cases h6 : upStr t ∈ wl'
              · rw [if_pos h6, List.filter_cons_of_neg h4f]; exact ih
              · rw [if_neg h6]; exact ih
            · rw [if_neg h5]
              by_cases h6 : upStr t ∈ wl'
              · rw [if_pos h6, List.filter_cons_of_neg h4f]; exact ih
              · rw [if_neg h6]; exact ih

theorem mem_exitLoop_dotted {aliases wl : List Str} :
    ∀ {ts seen : List Str} {t : Str},
      (∀ x ∈ ts, upStr x = x) → t ∈ ts → hasPre ['#'] t = false →
      upStr t ∉ aliases → hasDot t = true → upStr t ∉ seen →
      t ∈ exitLoop aliases wl ts seen := by
  intro ts
  induction ts with
  | nil => intro seen t _ ht; simp at ht
  | cons u rest ih =>
    intro seen t hUp ht hHash hAl hDot hSeen
    have hUpRest : ∀ x ∈ rest, upStr x = x :=
      fun x hx => hUp x (List.mem_cons_of_mem u hx)
    rcases List.mem_cons.mp ht with rfl | ht'
    · simp only [exitLoop]
      rw [if_neg (by simp [hHash]), if_neg hAl, if_neg hSeen, if_pos hDot]
      exact List.mem_cons_self t _
    · simp only [exitLoop]
      by_cases h1 : hasPre ['#'] u = true
      · rw [if_pos h1]; exact ih hUpRest ht' hHash hAl hDot hSeen
      · rw [if_neg h1]
        by_cases h2 : upStr u ∈ aliases
        · rw [if_pos h2]; exact ih hUpRest ht' hHash hAl hDot hSeen
        · rw [if_neg h2]
          by_cases h3 : upStr u ∈ seen
          · rw [if_pos h3]; exact ih hUpRest ht' hHash hAl hDot hSeen
          · rw [if_neg h3]
            by_cases hut : upStr t = upStr u
            · have heq : t = u := by
                rw [hUp t (List.mem_cons_of_mem u ht'), hUp u (List.mem_cons_self u rest)] at hut
                exact hut
              subst heq
              rw [if_pos hDot]
              exact List.mem_cons_self t _
            · have hSeen' : upStr t ∉ (upStr u :: seen) := by
                intro hmem
                rcases List.mem_cons.mp hmem with he | hs
                · exact hut he
                · exact hSeen hs
              by_cases h4 : hasDot u = true
              · rw [if_pos h4]
                exact List.mem_cons_of_mem u (ih hUpRest ht' hHash hAl hDot hSeen')
              · rw [if_neg h4]
                by_cases h5 : upStr u ∈ wl
                · rw [if_pos h5]
                  exact List.mem_cons_of_mem u (ih hUpRest ht' hHash hAl hDot hSeen')
                · rw [if_neg h5]
                  exact ih hUpRest ht' hHash hAl hDot hSeen'

theorem mem_insertStr_self (s : Str) (l : List Str) : s ∈ insertStr s l := by
  unfold insertStr
  split
  · assumption
  · simp

theorem mem_insertStr_of_mem {x : Str} {l : List Str} (s : Str) (h : x ∈ l) :
    x ∈ insertStr s l := by
  unfold insertStr
  split
  · exact h
  · exact List.mem_append_left _ h

theorem addMatching_mono {f : Str → Bool} {x : Str} :
    ∀ {pk : List Str} {i : SprocInfo},
      x ∈ i.portfolios → x ∈ (addMatching f pk i).portfolios := by
  intro pk
  induction pk with
  | nil => intro i h; exact h
  | cons k rest ih =>
    intro i h
    have hrw : addMatching f (k :: rest) i
        = addMatching f rest
            (if f k then { i with portfolios := insertStr k i.portfolios } else i) := rfl
    rw [hrw]
    apply ih
    split
    · exact mem_insertStr_of_mem k h
    · exact h

theorem mem_addMatching {f : Str → Bool} {k : Str} :
    ∀ {pk : List Str} {i : SprocInfo},
      k ∈ pk → f k = true → k ∈ (addMatching f pk i).portfolios := by
  intro pk
  induction pk with
  | nil => intro i h _; simp at h
  | cons j rest ih =>
    intro i hk hf
    have hrw : addMatching f (j :: rest) i
        = addMatching f rest
            (if f j then { i with portfolios := insertStr j i.portfolios } else i) := rfl
    rw [hrw]
    rcases List.mem_cons.mp hk with rfl | hk'
    · apply addMatching_mono
      rw [if_pos hf]
      exact mem_insertStr_self k i.portfolios
    · exact ih hk' hf

theorem enterConstant_exact {pk : List Str} {i : SprocInfo} {text : Str}
    (h : constantToken text ∈ pk) :
    constantToken text ∈ (enterConstant pk i text).portfolios := by
  simp only [enterConstant]
  have base : constantToken text ∈
      (if constantToken text ∈ pk
        then { i with portfolios := insertStr (constantToken text) i.portfolios }
        else i).portfolios := by
    rw [if_pos h]; exact mem_insertStr_self (constantToken text) i.portfolios
  by_cases h2 : hasSuf ['%'] (constantToken text) = true
  · rw [if_pos h2]
    by_cases h3 : hasPre ['%'] (constantToken2 text) = true
    · rw [if_pos h3]; exact addMatching_mono (addMatching_mono base)
    · rw [if_neg h3]; exact addMatching_mono base
  · rw [if_neg h2]
    by_cases h3 : hasPre ['%'] (constantToken2 text) = true
    · rw [if_pos h3]; exact addMatching_mono base
    · rw [if_neg h3]; exact base

theorem enterConstant_sufWild {pk : List Str} {i : SprocInfo} {text : Str} {k : Str}
    (hk : k ∈ pk) (h2 : hasSuf ['%'] (constantToken text) = true)
    (hm : hasPre (constantToken2 text) k = true) :
    k ∈ (enterConstant pk i text).portfolios := by
  simp only [enterConstant]
  rw [if_pos h2]
  by_cases h3 : hasPre ['%'] (constantToken2 text) = true
  · rw [if_pos h3]; exact addMatching_mono (mem_addMatching hk hm)
  · rw [if_neg h3]; exact mem_addMatching hk hm

theorem enterConstant_preWild {pk : List Str} {i : SprocInfo} {text : Str} {k : Str}
    (hk : k ∈ pk) (h3 : hasPre ['%'] (constantToken2 text) = true)
    (hm : hasSuf (trimPre ['%'] (constantToken2 text)) k = true) :
    k ∈ (enterConstant pk i text).portfolios := by
  simp only [enterConstant]
  rw [if_pos h3]
  exact mem_addMatching hk hm

theorem hasDot_iff {s : Str} : hasDot s = true ↔ '.' ∈ s := by
  unfold hasDot
  exact List.elem_iff

theorem dot_mem_goJoin3 (x y z : Str) : '.' ∈ goJoin '.' [x, y, z] := by
  simp [goJoin]

/- ------------------------------------------------------------------ -/
/- Claim theorems.                                                     -/
/- ------------------------------------------------------------------ -/

/-- Claim C3, counterexample: an empty identifier reaching the
normalizer is not fatal: the empty string splits into one empty
segment, so normalizeTableName returns the empty canonical key instead
of aborting the run. -/
theorem normalize_empty_not_fatal :
    normalizeTableName [] = some []
    ∧ (normalizeTableName []).isSome = true := by decide

/-- Claim C3 (amended): the normalizer aborts exactly when the trimmed,
uppercased input has more than three dot-separated segments; an input
with zero segments is impossible since splitting always yields at
least one segment (the empty identifier yields one empty segment and
the empty canonical key, non-fatally), and a crafted four-segment name
is fatal. -/
theorem normalize_fatal_iff :
    (∀ s : Str, normalizeTableName s = none ↔
      3 < (goSplit '.' (upStr (goTrimSpace s))).length)
    ∧ (∀ s : Str, 1 ≤ (goSplit '.' (upStr (goTrimSpace s))).length)
    ∧ normalizeTableName [] = some []
    ∧ normalizeTableName "A.B.C.D".toList = none := by
  refine ⟨?_, fun s => List.length_pos.mpr (goSplit_ne_nil _ _), by decide, by decide⟩
  intro s
  have hne := goSplit_ne_nil '.' (upStr (goTrimSpace s))
  unfold normalizeTableName
  revert hne
  generalize goSplit '.' (upStr (goTrimSpace s)) = ps
  intro hne
  rcases ps with _ | ⟨a, _ | ⟨b, _ | ⟨c, _ | ⟨d, ds⟩⟩⟩⟩
  · exact absurd rfl hne
  · simp [normalizeSegs]
  · simp [normalizeSegs]
  · by_cases hbr : removeBrackets a = homeDB <;> simp [normalizeSegs, hbr]
  · have hnone : normalizeSegs (a :: b :: c :: d :: ds) = none := rfl
    rw [hnone]
    have hlen : 3 < (a :: b :: c :: d :: ds).length := by
      simp only [List.length_cons]
      omega
    exact iff_of_true rfl hlen

theorem normalize_fatal_iff_witness :
    normalizeTableName "A.B.C.D.E".toList = none :=
  (normalize_fatal_iff.1 ("A.B.C.D.E".toList)).mpr (by decide)

/-- Claim C5: with home database BRS, BRS.dbo.Foo normalizes to FOO and
OTHER.dbo.Foo to OTHER.DBO.FOO; in general a three-segment name whose
bracket-stripped first segment equals the home database reduces to its
stripped third segment alone, and any other three-segment name becomes
the three stripped segments rejoined with dots. -/
theorem normalize_three_segments :
    normalizeTableName "BRS.dbo.Foo".toList = some "FOO".toList
    ∧ normalizeTableName "OTHER.dbo.Foo".toList = some "OTHER.DBO.FOO".toList
    ∧ ∀ s a b c : Str,
        goSplit '.' (upStr (goTrimSpace s)) = [a, b, c] →
        normalizeTableName s =
          (if removeBrackets a = homeDB then some (removeBrackets c)
           else some (goJoin '.' [removeBrackets a, removeBrackets b, removeBrackets c])) := by
  refine ⟨by decide, by decide, ?_⟩
  intro s a b c h
  unfold normalizeTableName
  rw [h]
  rfl

theorem normalize_three_segments_witness :
    normalizeTableName "X.Y.Z".toList =
      (if removeBrackets "X".toList = homeDB then some (removeBrackets "Z".toList)
       else some (goJoin '.'
          [removeBrackets "X".toList, removeBrackets "Y".toList, removeBrackets "Z".toList])) :=
  normalize_three_segments.2.2 ("X.Y.Z".toList) ("X".toList) ("Y".toList) ("Z".toList)
    (by decide)

/-- Claim C8, counterexample: normalizeTableName is not idempotent on
its non-fatal domain: the doubly bracket-quoted input [[A]] normalizes
to the canonical key [A], and normalizing that key again strips the
remaining brackets and returns A rather than the key unchanged. -/
theorem normalize_not_idempotent :
    normalizeTableName "[[A]]".toList = some "[A]".toList
    ∧ normalizeTableName "[A]".toList = some "A".toList
    ∧ ("[A]".toList = "A".toList) = False := by
  refine ⟨by decide, by decide, ?_⟩
  simp

/-- Claim C8 (amended): normalizeTableName is idempotent on every
canonical key it returns that is whitespace-trimmed and whose
dot-segments carry no residual bracket quoting; without these provisos
idempotence fails (inputs [[A]] and B. C are counterexamples). -/
theorem normalize_idempotent_on_clean_keys :
    ∀ s k : Str, normalizeTableName s = some k →
      goTrimSpace k = k →
      (∀ seg ∈ goSplit '.' k, removeBrackets seg = seg) →
      normalizeTableName k = some k := by
  intro s k h htrim hseg
  have hup : upStr k = k := normalize_upStr h
  unfold normalizeTableName at h
  obtain ⟨q, qs, hqs⟩ := goSplit_exists_cons '.' (upStr (goTrimSpace s))
  rw [hqs] at h
  have hqmem : q ∈ goSplit '.' (upStr (goTrimSpace s)) := by
    rw [hqs]; exact List.mem_cons_self _ _
  rcases qs with _ | ⟨b, _ | ⟨c, _ | ⟨d, ds⟩⟩⟩
  · simp only [normalizeSegs, Option.some.injEq] at h
    subst h
    have hdotk : '.' ∉ removeBrackets q :=
      fun hm => sep_not_mem_goSplit hqmem (removeBrackets_subset hm)
    have hsplitk : goSplit '.' (removeBrackets q) = [removeBrackets q] :=
      goSplit_of_not_mem hdotk
    have hrb := hseg (removeBrackets q) (by rw [hsplitk]; exact List.mem_cons_self _ _)
    unfold normalizeTableName
    rw [htrim, hup, hsplitk]
    simp [normalizeSegs, hrb]
  · simp only [normalizeSegs, Option.some.injEq] at h
    subst h
    have hbmem : b ∈ goSplit '.' (upStr (goTrimSpace s)) := by
      rw [hqs]; exact List.mem_cons_of_mem q (List.mem_cons_self _ _)
    have hdotk : '.' ∉ removeBrackets b :=
      fun hm => sep_not_mem_goSplit hbmem (removeBrackets_subset hm)
    have hsplitk : goSplit '.' (removeBrackets b) = [removeBrackets b] :=
      goSplit_of_not_mem hdotk
    have hrb := hseg (removeBrackets b) (by rw [hsplitk]; exact List.mem_cons_self _ _)
    unfold normalizeTableName
    rw [htrim, hup, hsplitk]
    simp [normalizeSegs, hrb]
  · have hbmem : b ∈ goSplit '.' (upStr (goTrimSpace s)) := by
      rw [hqs]; exact List.mem_cons_of_mem q (List.mem_cons_self _ _)
    have hcmem : c ∈ goSplit '.' (upStr (goTrimSpace s)) := by
      rw [hqs]
      exact List.mem_cons_of_mem q (List.mem_cons_of_mem b (List.mem_cons_self _ _))
    simp only [normalizeSegs] at h
    by_cases hbr : removeBrackets q = homeDB
    · rw [if_pos hbr, Option.some.injEq] at h
      subst h
      have hdotk : '.' ∉ removeBrackets c :=
        fun hm => sep_not_mem_goSplit hcmem (removeBrackets_subset hm)
      have hsplitk : goSplit '.' (removeBrackets c) = [removeBrackets c] :=
        goSplit_of_not_mem hdotk
      have hrb := hseg (removeBrackets c) (by rw [hsplitk]; exact List.mem_cons_self _ _)
      unfold normalizeTableName
      rw [htrim, hup, hsplitk]
      simp [normalizeSegs, hrb]
    · rw [if_neg hbr, Option.some.injEq] at h
      subst h
      have hd1 : '.' ∉ removeBrackets q :=
        fun hm => sep_not_mem_goSplit hqmem (removeBrackets_subset hm)
      have hd2 : '.' ∉ removeBrackets b :=
        fun hm => sep_not_mem_goSplit hbmem (removeBrackets_subset hm)
      have hd3 : '.' ∉ removeBrackets c :=
        fun hm => sep_not_mem_goSplit hcmem (removeBrackets_subset hm)
      have hsplitk : goSplit '.'
          (goJoin '.' [removeBrackets q, removeBrackets b, removeBrackets c])
          = [removeBrackets q, removeBrackets b, removeBrackets c] := by
        apply goSplit_goJoin (by simp)
        intro p hp
        simp only [List.mem_cons, List.not_mem_nil, or_false] at hp
        rcases hp with rfl | rfl | rfl
        · exact hd1
        · exact hd2
        · exact hd3
      have h1 := hseg (removeBrackets q) (by rw [hsplitk]; simp)
      have h2 := hseg (removeBrackets b) (by rw [hsplitk]; simp)
      have h3 := hseg (removeBrackets c) (by rw [hsplitk]; simp)
      unfold normalizeTableName
      rw [htrim, hup, hsplitk]
      simp only [normalizeSegs]
      rw [h1, h2, h3, if_neg hbr]
  · have hnone : normalizeSegs (q :: b :: c :: d :: ds) = none := rfl
    rw [hnone] at h
    exact Option.noConfusion h

theorem normalize_idempotent_on_clean_keys_witness :
    normalizeTableName "FOO".toList = some "FOO".toList :=
  normalize_idempotent_on_clean_keys ("foo".toList) ("FOO".toList)
    (by decide) (by decide) (by decide)

/-- Claim C1: canonical table keys containing a dot (exactly the keys
of three-part references whose stripped first segment differs from the
home database) bypass the whitelist: the dotted part of the emitted
facts is identical for every whitelist, and every dotted key that
survives the temp-marker, alias and dedup filters is emitted whatever
the whitelist contains. -/
theorem dotted_keys_bypass_whitelist :
    (∀ tables aliases wl wl' : List Str,
      (tablesUsed tables aliases wl).filter hasDot
        = (tablesUsed tables aliases wl').filter hasDot)
    ∧ (∀ tables aliases wl : List Str, ∀ t : Str,
        (∀ x ∈ tables, upStr x = x) → t ∈ tables →
        hasPre ['#'] t = false → upStr t ∉ aliases → hasDot t = true →
        t ∈ tablesUsed tables aliases wl)
    ∧ (∀ s k : Str, normalizeTableName s = some k →
        (hasDot k = true ↔
          ∃ a b c : Str, goSplit '.' (upStr (goTrimSpace s)) = [a, b, c]
            ∧ ¬removeBrackets a = homeDB)) := by
  refine ⟨fun tables aliases wl wl' => exitLoop_filter_dot, ?_, ?_⟩
  · intro tables aliases wl t hUp ht hHash hAl hD
    exact mem_exitLoop_dotted hUp ht hHash hAl hD (by simp)
  · intro s k h
    unfold normalizeTableName at h
    obtain ⟨q, qs, hqs⟩ := goSplit_exists_cons '.' (upStr (goTrimSpace s))
    rw [hqs] at h
    have hqmem : q ∈ goSplit '.' (upStr (goTrimSpace s)) := by
      rw [hqs]; exact List.mem_cons_self _ _
    constructor
    · intro hdk
      have hmem : '.' ∈ k := hasDot_iff.mp hdk
      rcases qs with _ | ⟨b, _ | ⟨c, _ | ⟨d, ds⟩⟩⟩
      · simp only [normalizeSegs, Option.some.injEq] at h
        subst h
        exact absurd (removeBrackets_subset hmem) (sep_not_mem_goSplit hqmem)
      · simp only [normalizeSegs, Option.some.injEq] at h
        subst h
        have hbmem : b ∈ goSplit '.' (upStr (goTrimSpace s)) := by
          rw [hqs]; exact List.mem_cons_of_mem q (List.mem_cons_self _ _)
        exact absurd (removeBrackets_subset hmem) (sep_not_mem_goSplit hbmem)
      · simp only [normalizeSegs] at h
        by_cases hbr : removeBrackets q = homeDB
        · rw [if_pos hbr, Option.some.injEq] at h
          subst h
          have hcmem : c ∈ goSplit '.' (upStr (goTrimSpace s)) := by
            rw [hqs]
            exact List.mem_cons_of_mem q
              (List.mem_cons_of_mem b (List.mem_cons_self _ _))
          exact absurd (removeBrackets_subset hmem) (sep_not_mem_goSplit hcmem)
        · exact ⟨q, b, c, hqs, hbr⟩
      · have hnone : normalizeSegs (q :: b :: c :: d :: ds) = none := rfl
        rw [hnone] at h
        exact Option.noConfusion h
    · rintro ⟨a, b, c, hsp, hbr⟩
      rw [hqs] at hsp
      rw [hsp] at h
      simp only [normalizeSegs] at h
      rw [if_neg hbr, Option.some.injEq] at h
      subst h
      exact hasDot_iff.mpr (dot_mem_goJoin3 _ _ _)

theorem dotted_keys_bypass_whitelist_witness :
    "OTHER.DBO.FOO".toList ∈ tablesUsed ["OTHER.DBO.FOO".toList] [] [] :=
  dotted_keys_bypass_whitelist.2.1 ["OTHER.DBO.FOO".toList] [] []
    ("OTHER.DBO.FOO".toList) (by decide) (by decide) (by decide) (by decide) (by decide)

/-- Claim C2, counterexample: a temp-marked table name qualified with a
non-home database is emitted: the reference OTHER.dbo.#t yields the
canonical key OTHER.DBO.#T, whose table segment #T carries the
temp-table marker, and the routine emits that key as a TableUsed fact
even though the whitelist is empty (the key is dotted, so the
whitelist is bypassed). -/
theorem temp_marker_emitted_when_foreign_qualified :
    routineFacts [] [] [TreeEvent.tableName "OTHER.dbo.#t".toList]
      = some ([("OTHER.DBO.#T".toList : Str)], [])
    ∧ goSplit '.' "OTHER.DBO.#T".toList
        = ["OTHER".toList, "DBO".toList, "#T".toList]
    ∧ hasPre ['#'] "#T".toList = true := by decide

/-- Claim C2 (amended): a canonical key starting with the temp-table
marker is never emitted, so a temp-marked name is never reported when
it is unqualified, schema-qualified or home-database-qualified (all of
which produce a canonical key starting with the marker, as
BRS.dbo.#t shows); a temp-marked name qualified with a non-home
database, however, produces the dotted key DB.SCHEMA.#NAME, which is
emitted. -/
theorem no_temp_key_emitted :
    (∀ tables aliases wl : List Str, ∀ t : Str,
      t ∈ tablesUsed tables aliases wl → hasPre ['#'] t = false)
    ∧ normalizeTableName "BRS.dbo.#t".toList = some "#T".toList
    ∧ routineFacts [] [] [TreeEvent.tableName "BRS.dbo.#t".toList] = some ([], []) := by
  refine ⟨?_, by decide, by decide⟩
  intro tables aliases wl t ht
  exact (mem_exitLoop ht).1

theorem no_temp_key_emitted_witness :
    hasPre ['#'] "FOO".toList = false :=
  no_temp_key_emitted.1 ["FOO".toList] [] ["FOO".toList] ("FOO".toList) (by decide)

/-- Claim C4, counterexample: with catalog {AAZZ, BZZ, ZZZ} the
string-literal token %ZZ matches AAZZ, BZZ and also ZZZ, because ZZZ
too ends in ZZ; the claimed result set {AAZZ, BZZ} is therefore
wrong. -/
theorem wildcard_example_includes_zzz :
    (enterConstant ["AAZZ".toList, "BZZ".toList, "ZZZ".toList] SprocInfo.empty
        (quoteCh :: "%ZZ".toList ++ [quoteCh])).portfolios
      = ["AAZZ".toList, "BZZ".toList, "ZZZ".toList]
    ∧ "ZZZ".toList ∈ (enterConstant ["AAZZ".toList, "BZZ".toList, "ZZZ".toList]
        SprocInfo.empty (quoteCh :: "%ZZ".toList ++ [quoteCh])).portfolios
    ∧ ("ZZZ".toList ∈ (["AAZZ".toList, "BZZ".toList] : List Str)) = False := by
  refine ⟨by decide, by decide, ?_⟩
  simp

/-- Claim C4 (amended): exact catalog matches are always included; a
token ending in the wildcard marker matches every catalog code having
the token minus its trailing marker as a prefix; a token whose
suffix-processed form starts with the marker matches every catalog
code having that form minus its leading marker as a suffix (for a
token carrying both markers the suffix rule is applied first and the
prefix rule then works with both markers stripped); with catalog
{AAA, AAB, ZZZ} token AA% yields {AAA, AAB}; with catalog
{AAZZ, BZZ, ZZZ} token %ZZ yields {AAZZ, BZZ, ZZZ} (ZZZ also ends in
ZZ) and token ZZZ yields {ZZZ} via the exact rule. -/
theorem portfolio_wildcard_matching :
    (∀ pk : List Str, ∀ i : SprocInfo, ∀ text : Str,
      constantToken text ∈ pk →
      constantToken text ∈ (enterConstant pk i text).portfolios)
    ∧ (∀ pk : List Str, ∀ i : SprocInfo, ∀ text k : Str,
        k ∈ pk → hasSuf ['%'] (constantToken text) = true →
        hasPre (constantToken2 text) k = true →
        k ∈ (enterConstant pk i text).portfolios)
    ∧ (∀ pk : List Str, ∀ i : SprocInfo, ∀ text k : Str,
        k ∈ pk → hasPre ['%'] (constantToken2 text) = true →
        hasSuf (trimPre ['%'] (constantToken2 text)) k = true →
        k ∈ (enterConstant pk i text).portfolios)
    ∧ (enterConstant ["AAA".toList, "AAB".toList, "ZZZ".toList] SprocInfo.empty
        (quoteCh :: "AA%".toList ++ [quoteCh])).portfolios
        = ["AAA".toList, "AAB".toList]
    ∧ (enterConstant ["AAZZ".toList, "BZZ".toList, "ZZZ".toList] SprocInfo.empty
        (quoteCh :: "%ZZ".toList ++ [quoteCh])).portfolios
        = ["AAZZ".toList, "BZZ".toList, "ZZZ".toList]
    ∧ (enterConstant ["AAZZ".toList, "BZZ".toList, "ZZZ".toList] SprocInfo.empty
        (quoteCh :: "ZZZ".toList ++ [quoteCh])).portfolios = ["ZZZ".toList] := by
  refine ⟨?_, ?_, ?_, by decide, by decide, by decide⟩
  · intro pk i text h
    exact enterConstant_exact h
  · intro pk i text k hk h2 hm
    exact enterConstant_sufWild hk h2 hm
  · intro pk i text k hk h3 hm
    exact enterConstant_preWild hk h3 hm

theorem portfolio_wildcard_matching_witness :
    constantToken (quoteCh :: "ZZZ".toList ++ [quoteCh])
      ∈ (enterConstant ["ZZZ".toList] SprocInfo.empty
          (quoteCh :: "ZZZ".toList ++ [quoteCh])).portfolios :=
  portfolio_wildcard_matching.1 ["ZZZ".toList] SprocInfo.empty
    (quoteCh :: "ZZZ".toList ++ [quoteCh]) (by decide)

/-- Claim C6: within one routine the emitted TableUsed facts contain
each canonical key at most once, even up to case, and contain no key
equal case-insensitively to a declared alias of the routine (alias
entries are stored uppercased by EnterTable_alias). -/
theorem tables_used_nodup_alias_free :
    ∀ tables aliases wl : List Str,
      (∀ x ∈ aliases, upStr x = x) →
      (tablesUsed tables aliases wl).Pairwise (fun p q => ¬upStr p = upStr q)
      ∧ ∀ t ∈ tablesUsed tables aliases wl, ∀ x ∈ aliases, ¬upStr t = upStr x := by
  intro tables aliases wl hA
  refine ⟨exitLoop_pairwise, ?_⟩
  intro t ht x hx he
  have h2 := (mem_exitLoop ht).2.1
  rw [he, hA x hx] at h2
  exact h2 hx

theorem tables_used_nodup_alias_free_witness :
    (tablesUsed ["FOO".toList, "foo".toList] ["BAR".toList]
        ["FOO".toList]).Pairwise (fun p q => ¬upStr p = upStr q) :=
  (tables_used_nodup_alias_free ["FOO".toList, "foo".toList] ["BAR".toList]
    ["FOO".toList] (by decide)).1

/-- Claim C10: every canonical key returned by normalizeTableName is
fully uppercase, and hence every table key carried by a TableUsed fact
is uppercase whenever the table set was populated exclusively with
normalizer outputs, as EnterTable_name does. -/
theorem canonical_keys_uppercase :
    (∀ s k : Str, normalizeTableName s = some k → upStr k = k)
    ∧ (∀ tables aliases wl : List Str, ∀ t : Str,
        (∀ x ∈ tables, ∃ s : Str, normalizeTableName s = some x) →
        t ∈ tablesUsed tables aliases wl → upStr t = t) := by
  refine ⟨fun s k h => normalize_upStr h, ?_⟩
  intro tables aliases wl t hsrc ht
  obtain ⟨s, hs⟩ := hsrc t (exitLoop_subset ht)
  exact normalize_upStr hs

theorem canonical_keys_uppercase_witness :
    upStr "FOO".toList = "FOO".toList :=
  canonical_keys_uppercase.1 ("foo".toList) ("FOO".toList) (by decide)

/-- Claim C7: a routine whose source text is absent is dropped by the
task-selection step of getSprocs and contributes no task at all, and a
routine whose source text is empty produces no facts whatsoever: no
TableUsed, no PortfolioReferenced and no ParseError entries. -/
theorem absent_or_empty_routine_no_facts :
    (∀ n : Str, ∀ defs : List (Str × Option Str),
      sprocTasks ((n, none) :: defs) = sprocTasks defs)
    ∧ (∀ pk wl : List Str, ∀ ev : Str → List TreeEvent, ∀ er : Str → List Str,
        processRoutine pk wl ev er [] = some ⟨[], [], []⟩) := by
  constructor
  · intro n defs; rfl
  · intro pk wl ev er; rfl

theorem absent_or_empty_routine_no_facts_witness :
    sprocTasks [(("N".toList : Str), (none : Option Str))] = sprocTasks [] :=
  absent_or_empty_routine_no_facts.1 ("N".toList) []

/-- Claim C9: per-routine extraction output is independent of the
worker-pool schedule: processing a fixed task list with a 1-worker
schedule and with a 6-worker schedule yields, for every routine name,
the same multiset of facts (arrival order across workers may differ,
content may not). -/
theorem pool_size_independent :
    ∀ (pk wl : List Str) (ev : Str → List TreeEvent) (er : Str → List Str)
      (tasks : List (Str × Str)) (s1 s2 : List (List (Str × Str))) (r : Str),
      s1.length = 1 → s2.length = 6 →
      s1.flatten.Perm tasks → s2.flatten.Perm tasks →
      ((runWorkers pk wl ev er s1).filter (fun p => p.1 == r)).Perm
        ((runWorkers pk wl ev er s2).filter (fun p => p.1 == r)) := by
  intro pk wl ev er tasks s1 s2 r _ _ h1 h2
  have hmap : ∀ s : List (List (Str × Str)),
      runWorkers pk wl ev er s
        = s.flatten.map (fun t => (t.1, processRoutine pk wl ev er t.2)) := by
    intro s
    unfold runWorkers
    rw [List.map_flatten]
  rw [hmap s1, hmap s2]
  exact ((h1.trans h2.symm).map _).filter _

theorem pool_size_independent_witness :
    ((runWorkers [] [] (fun _ => []) (fun _ => [])
        [[("P".toList, "src".toList)]]).filter
      (fun p => p.1 == "P".toList)).Perm
      ((runWorkers [] [] (fun _ => [])
          (fun _ => []) [[("P".toList, "src".toList)], [], [], [], [], []]).filter
        (fun p => p.1 == "P".toList)) :=
  pool_size_independent [] [] (fun _ => []) (fun _ => [])
    [("P".toList, "src".toList)]
    [[("P".toList, "src".toList)]]
    [[("P".toList, "src".toList)], [], [], [], [], []]
    ("P".toList) (by decide) (by decide) (by decide) (by decide)
